import Mathlib

/-!
# ECG R-peak modifier: shallow embedding and verification

This file embeds the refinement algorithm of `ecg_rpeaks_modifier.py`
(`ECGRPeakModifier.adjust_rpeaks`) as executable Lean definitions and proves
properties of it.

The signal is a list of exact rationals (modelling the real-valued amplitude
samples), peak positions are natural-number indices.  Out-of-range reads are
totalized with a default of `0`; every property proved below only exercises
in-range reads.  The local-maxima primitive (`scipy.signal.find_peaks`) is
embedded following scipy's `_local_maxima_1d`: a flat run of samples that is
strictly higher than the samples on both sides is one maximum, reported at the
midpoint of the run; the first and last sample of a sequence are never maxima;
an optional `height` is an inclusive lower amplitude bound.
-/

namespace ECG

set_option maxRecDepth 40000

/-- Amplitude lookup `signal[i]`, totalized with default `0`. -/
def sampleAt (x : List ℚ) (i : ℕ) : ℚ := x.getD i 0

/-- Python slice `x[a:b]` (clamped, empty when `b ≤ a`). -/
def slice (x : List ℚ) (a b : ℕ) : List ℚ := (x.drop a).take (b - a)

/-- Inner plateau scan of `_local_maxima_1d`: starting at `i`, skip samples
equal to `v` while staying below `iMax`; returns the first index where the
scan stops.  Structurally recursive on `fuel` so that it computes by kernel
reduction; a fuel of `iMax` is always sufficient. -/
def plateauEnd (x : List ℚ) (v : ℚ) (iMax : ℕ) : ℕ → ℕ → ℕ
  | 0, i => i
  | fuel + 1, i =>
      if i < iMax ∧ sampleAt x i = v then plateauEnd x v iMax fuel (i + 1) else i

/-- One step of the local-maxima scan at candidate position `i` (with
`1 ≤ i < iMax = length - 1`): if `x[i-1] < x[i]`, scan ahead over the plateau
of samples equal to `x[i]`; if the sample after the plateau is strictly lower,
report the plateau midpoint. -/
def peakAt (x : List ℚ) (iMax i : ℕ) : Option ℕ :=
  if sampleAt x (i - 1) < sampleAt x i then
    let j := plateauEnd x (sampleAt x i) iMax iMax (i + 1)
    if sampleAt x j < sampleAt x i then some ((i + (j - 1)) / 2) else none
  else none

/-- All local maxima of a sequence, in ascending order of position
(scipy `_local_maxima_1d`). -/
def localMaxima (x : List ℚ) : List ℕ :=
  (List.range' 1 (x.length - 1 - 1)).filterMap (peakAt x (x.length - 1))

/-- `scipy.signal.find_peaks(x, height=...)`: local maxima, kept when their
amplitude reaches the (inclusive) height floor if one is given. -/
def find_peaks (x : List ℚ) (height : Option ℚ) : List ℕ :=
  match height with
  | some h => (localMaxima x).filter (fun p => decide (h ≤ sampleAt x p))
  | none => localMaxima x

/-- Helper for `argmax`: best index/value so far, first maximum wins. -/
def argmaxAux : List ℚ → ℕ → ℕ → ℚ → ℕ
  | [], _, bi, _ => bi
  | v :: rest, i, bi, bv =>
      if bv < v then argmaxAux rest (i + 1) i v else argmaxAux rest (i + 1) bi bv

/-- `np.argmax`: index of the first maximal element; `none` on the empty list
(where numpy raises, which the fallback loop catches and skips). -/
def argmax : List ℚ → Option ℕ
  | [] => none
  | v :: rest => some (argmaxAux rest 1 0 v)

/-- `np.max` over the signal. -/
def sigMax (x : List ℚ) : ℚ := x.foldl max (x.headD 0)

/-- `np.min` over the signal. -/
def sigMin (x : List ℚ) : ℚ := x.foldl min (x.headD 0)

/-- `peak_height = (np.max(ecg_arr) - np.min(ecg_arr)) * 0.4`
(`height_threshold = 0.4`). -/
def peak_height (x : List ℚ) : ℚ := (sigMax x - sigMin x) * 0.4

/-- One iteration of the adjustment loop of `adjust_rpeaks` for segment `i`
(between `rpeaks[i]` and `rpeaks[i+1]`), updating the working copy `adj`.
Positions are read from the original `rp`; only slots `i` and `i+1` of `adj`
may be written. -/
def adjustSegment (sig : List ℚ) (rp : List ℕ) (adj : List ℕ) (i : ℕ)
    (ht : ℚ) : List ℕ :=
  let li := rp.getD i 0
  let ri := rp.getD (i + 1) 0
  let segment := slice sig li ri
  let rpeakLeft := sampleAt sig li
  let rpeakRight := sampleAt sig ri
  match find_peaks segment (some ht) with
  | [p] =>
      let absIdx := li + p
      let leftDiff := sampleAt segment p - rpeakLeft
      let rightDiff := sampleAt segment p - rpeakRight
      if 0 ≤ leftDiff ∧ 0 ≤ rightDiff then
        if ((absIdx : ℤ) - (li : ℤ)) > ((ri : ℤ) - (absIdx : ℤ)) then
          adj.set (i + 1) absIdx
        else
          adj.set i absIdx
      else if leftDiff * rightDiff ≤ 0 then
        if rpeakLeft < rpeakRight then adj.set i absIdx
        else adj.set (i + 1) absIdx
      else adj
  | [p1, p2] =>
      let abs1 := li + p1
      let abs2 := li + p2
      let diff1 := sampleAt segment p1 - rpeakLeft
      let diff2 := sampleAt segment p2 - rpeakRight
      if 0 < diff1 ∧ 0 < diff2 then (adj.set i abs1).set (i + 1) abs2
      else adj
  | _ => adj

/-- The main adjustment pass: fold `adjustSegment` over segments
`0 .. len(rpeaks) - 2`, starting from a copy of the original peaks. -/
def adjustLoop (sig : List ℚ) (rp : List ℕ) (ht : ℚ) : List ℕ :=
  (List.range (rp.length - 1)).foldl (fun adj i => adjustSegment sig rp adj i ht) rp

/-- `len(diff[diff > 0])` where `diff = np.abs(rpeaks - adjusted_rpeaks)`:
the number of slots the adjustment pass changed. -/
def changedCount (rp adj : List ℕ) : ℕ :=
  ((rp.zip adj).filter (fun q => q.1 != q.2)).length

/-- One iteration of the fallback candidate loop for segment `i` of the
adjusted sequence: find all local maxima (no height floor), take the one of
maximal amplitude, append its absolute index; skip the segment when there is
no maximum (numpy `argmax` raises on an empty selection). -/
def fallbackStep (sig : List ℚ) (adjusted : List ℕ) (cands : List ℕ)
    (i : ℕ) : List ℕ :=
  let a := adjusted.getD i 0
  let b := adjusted.getD (i + 1) 0
  let segment := slice sig a b
  let peaks := find_peaks segment none
  match argmax (peaks.map (sampleAt segment)) with
  | some j => cands ++ [a + peaks.getD j 0]
  | none => cands

/-- The fallback candidate generator: one candidate per adjusted segment, in
segment order. -/
def fallbackCandidates (sig : List ℚ) (adjusted : List ℕ) : List ℕ :=
  (List.range (adjusted.length - 1)).foldl (fallbackStep sig adjusted) []

/-- `ECGRPeakModifier.adjust_rpeaks`.  `none` models the `False, False`
return on an empty peak sequence; the second component is `some candidates`
exactly when the fallback pass ran (at least half of the peaks changed), and
`none` models the `False` sentinel otherwise. -/
def adjust_rpeaks (sig : List ℚ) (rpeaks : List ℕ) :
    Option (List ℕ × Option (List ℕ)) :=
  if rpeaks.isEmpty then none
  else
    let adjusted := adjustLoop sig rpeaks (peak_height sig)
    if (changedCount rpeaks adjusted : ℚ) ≥ (rpeaks.length : ℚ) * 0.5 then
      some (adjusted, some ((fallbackCandidates sig adjusted).filter
        (fun q => !(adjusted.contains q))))
    else
      some (adjusted, none)

/-- Strict ascending order of a peak sequence, stated on totalized reads. -/
def ascTo (l : List ℕ) : Prop :=
  ∀ j, j + 1 < l.length → l.getD j 0 < l.getD (j + 1) 0

/-- Invariant of the adjustment loop after the first `k` segment iterations:
the length is unchanged, every slot beyond `k` still holds its original peak,
slot `k` holds a value no greater than its original peak (it can only have
been lowered by a right-slot write of iteration `k - 1`), and the working
copy is strictly ascending. -/
def adjustInv (rp : List ℕ) (k : ℕ) (adj : List ℕ) : Prop :=
  adj.length = rp.length ∧
  (∀ j, k < j → adj.getD j 0 = rp.getD j 0) ∧
  adj.getD k 0 ≤ rp.getD k 0 ∧
  ascTo adj

/-- Witness signal for the single-maximum dominance rule: one tall maximum at
index 2 between peaks at 0 and 4. -/
def sigW1 : List ℚ := [5, 0, 9, 0, 5]

/-- Witness signal for the lower-neighbor rule: the maximum at index 2 lies
between the neighbor amplitudes 3 (index 0) and 7 (index 4). -/
def sigW2 : List ℚ := [3, 0, 5, 0, 7]

/-- Witness signal showing two consecutive loop iterations writing the same
slot: tall maxima at indices 4 and 8 between peaks 0, 6 and 11. -/
def sigC8 : List ℚ := [0, 0, 0, 0, 10, 0, 0, 0, 10, 0, 0, 0]

/-- Witness signal for duplicated fallback candidates: tall maxima at indices
5 and 9, a sub-threshold bump at index 7, used with the non-ascending peak
input `[0, 15, 2, 17]`. -/
def sigC10 : List ℚ := [0, 0, 0, 0, 0, 10, 0, 2, 0, 10, 0, 0, 0, 0, 0, 0, 0, 0]

/-! ## Basic list helpers -/

theorem getD_set_ne (l : List ℕ) (m j v : ℕ) (h : m ≠ j) :
    (l.set m v).getD j 0 = l.getD j 0 := by
  rw [List.getD_eq_getElem?_getD, List.getD_eq_getElem?_getD,
    List.getElem?_set_ne h]

theorem getD_set_self (l : List ℕ) (m v : ℕ) (h : m < l.length) :
    (l.set m v).getD m 0 = v := by
  rw [List.getD_eq_getElem?_getD, List.getElem?_set_self h]
  rfl

theorem chain'_lt_iff_ascTo (l : List ℕ) :
    List.Chain' (· < ·) l ↔ ascTo l := by
  rw [List.chain'_iff_get]
  constructor
  · intro h j hj
    have hj' : j < l.length - 1 := by omega
    have hg := h j hj'
    rwa [List.get_eq_getElem, List.get_eq_getElem,
      ← List.getD_eq_getElem l 0 (by omega), ← List.getD_eq_getElem l 0 (by omega)] at hg
  · intro h i hi
    have hg := h i (by omega)
    rwa [List.getD_eq_getElem l 0 (by omega), List.getD_eq_getElem l 0 (by omega)] at hg

theorem ascTo_set (l : List ℕ) (m v : ℕ) (hm : m < l.length) (h : ascTo l)
    (hlo : 1 ≤ m → l.getD (m - 1) 0 < v)
    (hhi : m + 1 < l.length → v < l.getD (m + 1) 0) :
    ascTo (l.set m v) := by
  intro j hj
  rw [List.length_set] at hj
  rcases Nat.lt_trichotomy j m with hjm | heq | hjm
  · rcases Nat.eq_or_lt_of_le hjm with hje | hjl
    · rw [getD_set_ne l m j v (by omega)]
      have hset : (l.set m v).getD (j + 1) 0 = v := by
        have : j + 1 = m := by omega
        rw [this, getD_set_self l m v hm]
      rw [hset]
      have hl := hlo (by omega)
      have hidx : m - 1 = j := by omega
      rwa [hidx] at hl
    · rw [getD_set_ne l m j v (by omega), getD_set_ne l m (j + 1) v (by omega)]
      exact h j hj
  · subst heq
    rw [getD_set_self l j v hm, getD_set_ne l j (j + 1) v (by omega)]
    exact hhi hj
  · rw [getD_set_ne l m j v (by omega), getD_set_ne l m (j + 1) v (by omega)]
    exact h j hj

theorem ascTo_mono (l : List ℕ) (h : ascTo l) :
    ∀ m j, j ≤ m → m < l.length → l.getD j 0 ≤ l.getD m 0 := by
  intro m
  induction m with
  | zero => intro j hj _; interval_cases j; exact le_refl _
  | succ n ih =>
      intro j hj hm
      rcases Nat.eq_or_lt_of_le hj with rfl | hj'
      · exact le_refl _
      · exact le_trans (ih j (by omega) (by omega)) (le_of_lt (h n hm))

/-! ## Plateau-scan lemmas -/

theorem plateauEnd_ge (x : List ℚ) (v : ℚ) (iMax : ℕ) :
    ∀ fuel i, i ≤ plateauEnd x v iMax fuel i := by
  intro fuel
  induction fuel with
  | zero => intro i; exact le_refl i
  | succ n ih =>
      intro i
      simp only [plateauEnd]
      split
      · exact le_trans (Nat.le_succ i) (ih (i + 1))
      · exact le_refl i

theorem plateauEnd_le (x : List ℚ) (v : ℚ) (iMax : ℕ) :
    ∀ fuel i, i ≤ iMax → plateauEnd x v iMax fuel i ≤ iMax := by
  intro fuel
  induction fuel with
  | zero => intro i hi; exact hi
  | succ n ih =>
      intro i hi
      simp only [plateauEnd]
      split
      · next hc => exact ih (i + 1) (by omega)
      · exact hi

theorem plateauEnd_plateau (x : List ℚ) (v : ℚ) (iMax : ℕ) :
    ∀ fuel i l, i ≤ l → l < plateauEnd x v iMax fuel i → sampleAt x l = v := by
  intro fuel
  induction fuel with
  | zero => intro i l hil hl; simp only [plateauEnd] at hl; omega
  | succ n ih =>
      intro i l hil hl
      simp only [plateauEnd] at hl
      by_cases hc : i < iMax ∧ sampleAt x i = v
      · rw [if_pos hc] at hl
        rcases Nat.eq_or_lt_of_le hil with rfl | hil'
        · exact hc.2
        · exact ih (i + 1) l (by omega) hl
      · rw [if_neg hc] at hl; omega

theorem plateauEnd_stop (x : List ℚ) (v : ℚ) (iMax : ℕ) :
    ∀ fuel i, iMax - i ≤ fuel →
      ¬(plateauEnd x v iMax fuel i < iMax ∧
        sampleAt x (plateauEnd x v iMax fuel i) = v) := by
  intro fuel
  induction fuel with
  | zero =>
      intro i hfi
      simp only [plateauEnd]
      intro hcon
      omega
  | succ n ih =>
      intro i hfi
      simp only [plateauEnd]
      by_cases hc : i < iMax ∧ sampleAt x i = v
      · rw [if_pos hc]
        exact ih (i + 1) (by omega)
      · rw [if_neg hc]
        exact hc

/-! ## Local-maxima lemmas -/

theorem peakAt_eq_some (x : List ℚ) (iMax i m : ℕ) :
    peakAt x iMax i = some m ↔
      sampleAt x (i - 1) < sampleAt x i ∧
      sampleAt x (plateauEnd x (sampleAt x i) iMax iMax (i + 1)) < sampleAt x i ∧
      m = (i + (plateauEnd x (sampleAt x i) iMax iMax (i + 1) - 1)) / 2 := by
  unfold peakAt
  by_cases h1 : sampleAt x (i - 1) < sampleAt x i
  · rw [if_pos h1]
    by_cases h2 :
        sampleAt x (plateauEnd x (sampleAt x i) iMax iMax (i + 1)) < sampleAt x i
    · simp only [if_pos h2, Option.some_inj]
      constructor
      · intro hm; exact ⟨h1, h2, hm.symm⟩
      · intro hm; exact hm.2.2.symm
    · simp only [if_neg h2]
      constructor
      · intro hcon; cases hcon
      · intro hm; exact absurd hm.2.1 h2
  · rw [if_neg h1]
    constructor
    · intro hcon; cases hcon
    · intro hm; exact absurd hm.1 h1

theorem peakAt_bounds (x : List ℚ) (iMax i m : ℕ) (hi : 1 ≤ i) (hiMax : i < iMax)
    (h : peakAt x iMax i = some m) : i ≤ m ∧ m + 1 ≤ iMax := by
  rcases (peakAt_eq_some x iMax i m).mp h with ⟨_, _, hm⟩
  have hge : i + 1 ≤ plateauEnd x (sampleAt x i) iMax iMax (i + 1) :=
    plateauEnd_ge x (sampleAt x i) iMax iMax (i + 1)
  have hle : plateauEnd x (sampleAt x i) iMax iMax (i + 1) ≤ iMax :=
    plateauEnd_le x (sampleAt x i) iMax iMax (i + 1) (by omega)
  omega

theorem peakAt_none_between (x : List ℚ) (iMax i i' : ℕ)
    (_h1 : sampleAt x (i - 1) < sampleAt x i)
    (h2 : sampleAt x (plateauEnd x (sampleAt x i) iMax iMax (i + 1)) < sampleAt x i)
    (hlt : i < i') (hle : i' ≤ plateauEnd x (sampleAt x i) iMax iMax (i + 1)) :
    peakAt x iMax i' = none := by
  unfold peakAt
  rw [if_neg]
  have hplat : ∀ l, i + 1 ≤ l →
      l < plateauEnd x (sampleAt x i) iMax iMax (i + 1) → sampleAt x l = sampleAt x i :=
    fun l => plateauEnd_plateau x (sampleAt x i) iMax iMax (i + 1) l
  have hprev : sampleAt x (i' - 1) = sampleAt x i := by
    rcases Nat.eq_or_lt_of_le hlt with heq | hlt'
    · rw [← heq]; simp
    · exact hplat (i' - 1) (by omega) (by omega)
  rcases Nat.eq_or_lt_of_le hle with heq | hlt''
  · intro hcon
    rw [hprev, heq] at hcon
    exact absurd (lt_trans h2 hcon) (lt_irrefl _)
  · have hcur : sampleAt x i' = sampleAt x i := hplat i' (by omega) hlt''
    rw [hprev, hcur]
    exact lt_irrefl _

theorem peakAt_mono (x : List ℚ) (iMax i i' m m' : ℕ) (hii : i < i')
    (h : peakAt x iMax i = some m) (h' : peakAt x iMax i' = some m') :
    m < m' := by
  rcases (peakAt_eq_some x iMax i m).mp h with ⟨h1, h2, hm⟩
  set j := plateauEnd x (sampleAt x i) iMax iMax (i + 1) with hjdef
  have hge : i + 1 ≤ j := plateauEnd_ge x (sampleAt x i) iMax iMax (i + 1)
  have hout : j < i' := by
    by_contra hcon
    have hnone : peakAt x iMax i' = none :=
      peakAt_none_between x iMax i i' h1 h2 hii (by omega)
    rw [hnone] at h'
    cases h'
  rcases (peakAt_eq_some x iMax i' m').mp h' with ⟨_, _, hm'⟩
  have hge' : i' + 1 ≤ plateauEnd x (sampleAt x i') iMax iMax (i' + 1) :=
    plateauEnd_ge x (sampleAt x i') iMax iMax (i' + 1)
  omega

theorem localMaxima_pairwise (x : List ℚ) :
    List.Pairwise (· < ·) (localMaxima x) := by
  unfold localMaxima
  rw [List.pairwise_filterMap]
  have hpw : List.Pairwise (· < ·) (List.range' 1 (x.length - 1 - 1)) :=
    List.pairwise_lt_range' 1 (x.length - 1 - 1) 1
  exact hpw.imp_of_mem (fun {a b} _ _ hab => by
    intro m hm m' hm'
    exact peakAt_mono x (x.length - 1) a b m m' hab hm hm')

theorem localMaxima_mem_bounds (x : List ℚ) (p : ℕ) (h : p ∈ localMaxima x) :
    1 ≤ p ∧ p + 2 ≤ x.length := by
  unfold localMaxima at h
  rcases List.mem_filterMap.mp h with ⟨i, hi, hpi⟩
  rcases List.mem_range'.mp hi with ⟨k, hk, hik⟩
  have hi1 : 1 ≤ i := by omega
  have hiMax : i < x.length - 1 := by omega
  have hb := peakAt_bounds x (x.length - 1) i p hi1 hiMax hpi
  omega

theorem find_peaks_mem_localMaxima (x : List ℚ) (ht : Option ℚ) (p : ℕ)
    (h : p ∈ find_peaks x ht) : p ∈ localMaxima x := by
  cases ht with
  | none => exact h
  | some v => exact (List.mem_filter.mp h).1

theorem find_peaks_mem_bounds (x : List ℚ) (ht : Option ℚ) (p : ℕ)
    (h : p ∈ find_peaks x ht) : 1 ≤ p ∧ p + 2 ≤ x.length :=
  localMaxima_mem_bounds x p (find_peaks_mem_localMaxima x ht p h)

theorem find_peaks_pairwise (x : List ℚ) (ht : Option ℚ) :
    List.Pairwise (· < ·) (find_peaks x ht) := by
  cases ht with
  | none => exact localMaxima_pairwise x
  | some v => exact (localMaxima_pairwise x).filter _

theorem slice_length_le (x : List ℚ) (a b : ℕ) :
    (slice x a b).length ≤ b - a := by
  unfold slice
  rw [List.length_take, List.length_drop]
  omega

/-! ## Structure of one adjustment iteration -/

theorem adjustSegment_length (sig : List ℚ) (rp adj : List ℕ) (i : ℕ) (ht : ℚ) :
    (adjustSegment sig rp adj i ht).length = adj.length := by
  simp only [adjustSegment]
  split
  · split
    · split <;> rw [List.length_set]
    · split
      · split <;> rw [List.length_set]
      · rfl
  · split
    · rw [List.length_set, List.length_set]
    · rfl
  · rfl

theorem adjustSegment_cases (sig : List ℚ) (rp adj : List ℕ) (i : ℕ) (ht : ℚ) :
    adjustSegment sig rp adj i ht = adj ∨
    (∃ p, p ∈ find_peaks (slice sig (rp.getD i 0) (rp.getD (i + 1) 0)) (some ht) ∧
      (adjustSegment sig rp adj i ht = adj.set i (rp.getD i 0 + p) ∨
       adjustSegment sig rp adj i ht = adj.set (i + 1) (rp.getD i 0 + p))) ∨
    (∃ p1 p2,
      find_peaks (slice sig (rp.getD i 0) (rp.getD (i + 1) 0)) (some ht) = [p1, p2] ∧
      adjustSegment sig rp adj i ht =
        (adj.set i (rp.getD i 0 + p1)).set (i + 1) (rp.getD i 0 + p2)) := by
  simp only [adjustSegment]
  split
  · next p heq =>
      have hp : p ∈ find_peaks (slice sig (rp.getD i 0) (rp.getD (i + 1) 0)) (some ht) := by
        rw [heq]; exact List.mem_singleton.mpr rfl
      split
      · split
        · exact Or.inr (Or.inl ⟨p, hp, Or.inr rfl⟩)
        · exact Or.inr (Or.inl ⟨p, hp, Or.inl rfl⟩)
      · split
        · split
          · exact Or.inr (Or.inl ⟨p, hp, Or.inl rfl⟩)
          · exact Or.inr (Or.inl ⟨p, hp, Or.inr rfl⟩)
        · exact Or.inl rfl
  · next p1 p2 heq =>
      split
      · exact Or.inr (Or.inr ⟨p1, p2, heq, rfl⟩)
      · exact Or.inl rfl
  · exact Or.inl rfl

theorem adjustSegment_frame (sig : List ℚ) (rp adj : List ℕ) (i j : ℕ) (ht : ℚ)
    (h1 : j ≠ i) (h2 : j ≠ i + 1) :
    (adjustSegment sig rp adj i ht).getD j 0 = adj.getD j 0 := by
  rcases adjustSegment_cases sig rp adj i ht with h | ⟨p, _, h | h⟩ | ⟨p1, p2, _, h⟩
  · rw [h]
  · rw [h, getD_set_ne adj i j _ (Ne.symm h1)]
  · rw [h, getD_set_ne adj (i + 1) j _ (Ne.symm h2)]
  · rw [h, getD_set_ne _ (i + 1) j _ (Ne.symm h2),
      getD_set_ne adj i j _ (Ne.symm h1)]

/-- Every index the single- or two-maxima rules can write lies strictly
between the two original peaks bounding the segment. -/
theorem write_bounds (sig : List ℚ) (li ri p : ℕ) (ht : ℚ)
    (h : p ∈ find_peaks (slice sig li ri) (some ht)) :
    li < li + p ∧ li + p + 2 ≤ ri := by
  have hb := find_peaks_mem_bounds (slice sig li ri) (some ht) p h
  have hl := slice_length_le sig li ri
  omega

/-! ## The adjustment-loop invariant -/

theorem adjustInv_step (sig : List ℚ) (rp : List ℕ) (ht : ℚ) (k : ℕ)
    (adj : List ℕ) (hrp : ascTo rp) (hk : k + 1 < rp.length)
    (h : adjustInv rp k adj) :
    adjustInv rp (k + 1) (adjustSegment sig rp adj k ht) := by
  obtain ⟨hlen, hunt, hle, hasc⟩ := h
  rcases adjustSegment_cases sig rp adj k ht with
    heq | ⟨p, hp, heq | heq⟩ | ⟨p1, p2, hfp, heq⟩
  · rw [heq]
    exact ⟨hlen, fun j hj => hunt j (by omega),
      le_of_eq (hunt (k + 1) (by omega)), hasc⟩
  · -- left-slot write: adj.set k (li + p)
    have hb := write_bounds sig (rp.getD k 0) (rp.getD (k + 1) 0) p ht hp
    rw [heq]
    refine ⟨by rw [List.length_set]; exact hlen, ?_, ?_, ?_⟩
    · intro j hj
      rw [getD_set_ne adj k j _ (by omega)]
      exact hunt j (by omega)
    · rw [getD_set_ne adj k (k + 1) _ (by omega)]
      exact le_of_eq (hunt (k + 1) (by omega))
    · refine ascTo_set adj k _ (by omega) hasc ?_ ?_
      · intro hk1
        have hstep := hasc (k - 1) (by rw [hlen]; omega)
        have hidx : k - 1 + 1 = k := by omega
        rw [hidx] at hstep
        exact lt_of_le_of_lt (le_trans (le_of_lt hstep) hle) (by omega)
      · intro _
        rw [hunt (k + 1) (by omega)]
        omega
  · -- right-slot write: adj.set (k + 1) (li + p)
    have hb := write_bounds sig (rp.getD k 0) (rp.getD (k + 1) 0) p ht hp
    rw [heq]
    refine ⟨by rw [List.length_set]; exact hlen, ?_, ?_, ?_⟩
    · intro j hj
      rw [getD_set_ne adj (k + 1) j _ (by omega)]
      exact hunt j (by omega)
    · rw [getD_set_self adj (k + 1) _ (by omega)]
      omega
    · refine ascTo_set adj (k + 1) _ (by omega) hasc ?_ ?_
      · intro _
        have hidx : k + 1 - 1 = k := by omega
        rw [hidx]
        exact lt_of_le_of_lt hle (by omega)
      · intro hk2
        rw [hunt (k + 2) (by omega)]
        have hrpstep : rp.getD (k + 1) 0 < rp.getD (k + 2) 0 :=
          hrp (k + 1) (by rw [← hlen]; omega)
        omega
  · -- two-maxima write: (adj.set k (li + p1)).set (k + 1) (li + p2)
    have hp1 : p1 ∈ find_peaks (slice sig (rp.getD k 0) (rp.getD (k + 1) 0)) (some ht) := by
      rw [hfp]; exact List.mem_cons_self _ _
    have hp2 : p2 ∈ find_peaks (slice sig (rp.getD k 0) (rp.getD (k + 1) 0)) (some ht) := by
      rw [hfp]; exact List.mem_cons_of_mem _ (List.mem_cons_self _ _)
    have hb1 := write_bounds sig (rp.getD k 0) (rp.getD (k + 1) 0) p1 ht hp1
    have hb2 := write_bounds sig (rp.getD k 0) (rp.getD (k + 1) 0) p2 ht hp2
    have hp12 : p1 < p2 := by
      have hpw := find_peaks_pairwise (slice sig (rp.getD k 0) (rp.getD (k + 1) 0)) (some ht)
      rw [hfp, List.pairwise_cons] at hpw
      exact hpw.1 p2 (List.mem_cons_self _ _)
    have hasc1 : ascTo (adj.set k (rp.getD k 0 + p1)) := by
      refine ascTo_set adj k _ (by omega) hasc ?_ ?_
      · intro hk1
        have hstep := hasc (k - 1) (by rw [hlen]; omega)
        have hidx : k - 1 + 1 = k := by omega
        rw [hidx] at hstep
        exact lt_of_le_of_lt (le_trans (le_of_lt hstep) hle) (by omega)
      · intro _
        rw [hunt (k + 1) (by omega)]
        omega
    rw [heq]
    refine ⟨by rw [List.length_set, List.length_set]; exact hlen, ?_, ?_, ?_⟩
    · intro j hj
      rw [getD_set_ne _ (k + 1) j _ (by omega), getD_set_ne adj k j _ (by omega)]
      exact hunt j (by omega)
    · rw [getD_set_self _ (k + 1) _ (by rw [List.length_set]; omega)]
      omega
    · refine ascTo_set _ (k + 1) _ (by rw [List.length_set]; omega) hasc1 ?_ ?_
      · intro _
        have hidx : k + 1 - 1 = k := by omega
        rw [hidx, getD_set_self adj k _ (by omega)]
        omega
      · intro hk2
        rw [List.length_set] at hk2
        rw [getD_set_ne adj k (k + 2) _ (by omega), hunt (k + 2) (by omega)]
        have hrpstep : rp.getD (k + 1) 0 < rp.getD (k + 2) 0 :=
          hrp (k + 1) (by rw [← hlen]; omega)
        omega

theorem adjustLoop_inv (sig : List ℚ) (rp : List ℕ) (ht : ℚ) (hrp : ascTo rp) :
    ∀ k, k ≤ rp.length - 1 →
      adjustInv rp k
        ((List.range k).foldl (fun adj i => adjustSegment sig rp adj i ht) rp) := by
  intro k
  induction k with
  | zero =>
      intro _
      exact ⟨rfl, fun j _ => rfl, le_refl _, hrp⟩
  | succ n ih =>
      intro hn
      rw [List.range_succ, List.foldl_append, List.foldl_cons, List.foldl_nil]
      exact adjustInv_step sig rp ht n _ hrp (by omega) (ih (by omega))

theorem adjustLoop_spec (sig : List ℚ) (rp : List ℕ) (ht : ℚ) (hrp : ascTo rp) :
    adjustInv rp (rp.length - 1) (adjustLoop sig rp ht) :=
  adjustLoop_inv sig rp ht hrp (rp.length - 1) (le_refl _)

theorem adjustLoop_ascTo (sig : List ℚ) (rp : List ℕ) (ht : ℚ) (hrp : ascTo rp) :
    ascTo (adjustLoop sig rp ht) :=
  (adjustLoop_spec sig rp ht hrp).2.2.2

theorem foldl_adjustSegment_length (sig : List ℚ) (rp : List ℕ) (ht : ℚ) :
    ∀ (idxs : List ℕ) (adj : List ℕ),
      (idxs.foldl (fun a i => adjustSegment sig rp a i ht) adj).length = adj.length := by
  intro idxs
  induction idxs with
  | nil => intro adj; rfl
  | cons a as ih =>
      intro adj
      rw [List.foldl_cons, ih, adjustSegment_length]

theorem adjustLoop_length (sig : List ℚ) (rp : List ℕ) (ht : ℚ) :
    (adjustLoop sig rp ht).length = rp.length :=
  foldl_adjustSegment_length sig rp ht (List.range (rp.length - 1)) rp

/-! ## Characterization of the full operation -/

theorem adjust_rpeaks_spec (sig : List ℚ) (rp : List ℕ) (hne : rp ≠ []) :
    adjust_rpeaks sig rp =
      some (adjustLoop sig rp (peak_height sig),
        if (changedCount rp (adjustLoop sig rp (peak_height sig)) : ℚ) ≥
            (rp.length : ℚ) * 0.5 then
          some ((fallbackCandidates sig (adjustLoop sig rp (peak_height sig))).filter
            (fun q => !((adjustLoop sig rp (peak_height sig)).contains q)))
        else none) := by
  simp only [adjust_rpeaks]
  rw [if_neg (by simp [hne])]
  split <;> rfl

theorem adjust_rpeaks_of_some (sig : List ℚ) (rp adj : List ℕ)
    (c : Option (List ℕ)) (h : adjust_rpeaks sig rp = some (adj, c)) :
    rp ≠ [] ∧ adj = adjustLoop sig rp (peak_height sig) := by
  have hne : rp ≠ [] := by
    intro hcon
    subst hcon
    simp [adjust_rpeaks] at h
  refine ⟨hne, ?_⟩
  rw [adjust_rpeaks_spec sig rp hne] at h
  injection Option.some.inj h with ha hc
  exact ha.symm

theorem adjust_rpeaks_preserves_asc (sig : List ℚ) (rp adj : List ℕ)
    (c : Option (List ℕ)) (hasc : List.Chain' (· < ·) rp)
    (h : adjust_rpeaks sig rp = some (adj, c)) :
    List.Chain' (· < ·) adj := by
  obtain ⟨hne, hadj⟩ := adjust_rpeaks_of_some sig rp adj c h
  rw [hadj, chain'_lt_iff_ascTo]
  exact adjustLoop_ascTo sig rp (peak_height sig) ((chain'_lt_iff_ascTo rp).mp hasc)

theorem adjustLoop_valid (sig : List ℚ) (rp : List ℕ) (ht : ℚ)
    (hrp : ascTo rp) (hvalid : ∀ x ∈ rp, x < sig.length) :
    ∀ x ∈ adjustLoop sig rp ht, x < sig.length := by
  intro x hx
  have hL := adjustLoop_length sig rp ht
  by_cases hlen0 : rp.length = 0
  · rw [List.mem_iff_getElem] at hx
    obtain ⟨n, hn, _⟩ := hx
    omega
  · obtain ⟨_, _, hlast, hasc⟩ := adjustLoop_spec sig rp ht hrp
    rw [List.mem_iff_getElem] at hx
    obtain ⟨n, hn, hxn⟩ := hx
    have hxD : (adjustLoop sig rp ht).getD n 0 = x := by
      rw [List.getD_eq_getElem _ 0 hn]; exact hxn
    have hmono : (adjustLoop sig rp ht).getD n 0 ≤
        (adjustLoop sig rp ht).getD (rp.length - 1) 0 :=
      ascTo_mono _ hasc (rp.length - 1) n (by omega) (by omega)
    have hrpmem : rp.getD (rp.length - 1) 0 ∈ rp := by
      rw [List.getD_eq_getElem rp 0 (by omega)]
      exact List.getElem_mem _
    have := hvalid _ hrpmem
    omega

/-! ## Claims -/

/-- Claim C1: single-maximum dominance rule.  When the thresholded search on
the segment between `rpeaks[i]` and `rpeaks[i+1]` returns exactly one maximum
at offset `p` (absolute index `abs = rpeaks[i] + p`) and both amplitude
differences are nonnegative, the iteration replaces the right slot `i+1` with
`abs` when `abs - rpeaks[i] > rpeaks[i+1] - abs`, and otherwise (ties
included) replaces the left slot `i`. -/
theorem C1_single_max_dominance (sig : List ℚ) (rp adj : List ℕ) (i p : ℕ)
    (ht : ℚ)
    (hfp : find_peaks (slice sig (rp.getD i 0) (rp.getD (i + 1) 0)) (some ht) = [p])
    (hl : 0 ≤ sampleAt (slice sig (rp.getD i 0) (rp.getD (i + 1) 0)) p -
      sampleAt sig (rp.getD i 0))
    (hr : 0 ≤ sampleAt (slice sig (rp.getD i 0) (rp.getD (i + 1) 0)) p -
      sampleAt sig (rp.getD (i + 1) 0)) :
    adjustSegment sig rp adj i ht =
      if ((rp.getD i 0 + p : ℕ) : ℤ) - ((rp.getD i 0 : ℕ) : ℤ) >
          ((rp.getD (i + 1) 0 : ℕ) : ℤ) - ((rp.getD i 0 + p : ℕ) : ℤ) then
        adj.set (i + 1) (rp.getD i 0 + p)
      else adj.set i (rp.getD i 0 + p) := by
  simp only [adjustSegment, hfp]
  rw [if_pos ⟨hl, hr⟩]

/-- Witness for C1: on `sigW1` with peaks `[0, 4]`, the single maximum at
index 2 is at distance 2 from both peaks (a tie), so the left slot is
replaced. -/
theorem C1_single_max_dominance_witness :
    adjustSegment sigW1 [0, 4] [0, 4] 0 (peak_height sigW1) = [2, 4] := by
  rw [C1_single_max_dominance sigW1 [0, 4] [0, 4] 0 2 (peak_height sigW1)
    (by with_unfolding_all decide) (by with_unfolding_all decide)
    (by with_unfolding_all decide)]
  with_unfolding_all decide

/-- Claim C2: single-maximum lower-neighbor rule.  When exactly one
thresholded maximum is found and the dominance rule does not apply, a
nonpositive product of the two amplitude differences makes the iteration
replace the slot whose original peak has the lower amplitude (left on
`rpeak_left < rpeak_right`, right otherwise); a positive product (maximum
below both neighbors) leaves the working copy unchanged. -/
theorem C2_single_max_lower_neighbor (sig : List ℚ) (rp adj : List ℕ)
    (i p : ℕ) (ht : ℚ)
    (hfp : find_peaks (slice sig (rp.getD i 0) (rp.getD (i + 1) 0)) (some ht) = [p])
    (hnot : ¬(0 ≤ sampleAt (slice sig (rp.getD i 0) (rp.getD (i + 1) 0)) p -
        sampleAt sig (rp.getD i 0) ∧
      0 ≤ sampleAt (slice sig (rp.getD i 0) (rp.getD (i + 1) 0)) p -
        sampleAt sig (rp.getD (i + 1) 0))) :
    ((sampleAt (slice sig (rp.getD i 0) (rp.getD (i + 1) 0)) p -
        sampleAt sig (rp.getD i 0)) *
      (sampleAt (slice sig (rp.getD i 0) (rp.getD (i + 1) 0)) p -
        sampleAt sig (rp.getD (i + 1) 0)) ≤ 0 →
      adjustSegment sig rp adj i ht =
        if sampleAt sig (rp.getD i 0) < sampleAt sig (rp.getD (i + 1) 0) then
          adj.set i (rp.getD i 0 + p)
        else adj.set (i + 1) (rp.getD i 0 + p)) ∧
    (0 < (sampleAt (slice sig (rp.getD i 0) (rp.getD (i + 1) 0)) p -
        sampleAt sig (rp.getD i 0)) *
      (sampleAt (slice sig (rp.getD i 0) (rp.getD (i + 1) 0)) p -
        sampleAt sig (rp.getD (i + 1) 0)) →
      adjustSegment sig rp adj i ht = adj) := by
  constructor
  · intro hprod
    simp only [adjustSegment, hfp]
    rw [if_neg hnot, if_pos hprod]
  · intro hprod
    simp only [adjustSegment, hfp]
    rw [if_neg hnot, if_neg (not_le.mpr hprod)]

/-- Witness for C2: on `sigW2` with peaks `[0, 4]`, the maximum amplitude 5
lies between the neighbor amplitudes 3 and 7, so the lower (left) slot is
replaced. -/
theorem C2_single_max_lower_neighbor_witness :
    adjustSegment sigW2 [0, 4] [0, 4] 0 (peak_height sigW2) = [2, 4] := by
  rw [(C2_single_max_lower_neighbor sigW2 [0, 4] [0, 4] 0 2 (peak_height sigW2)
    (by with_unfolding_all decide) (by with_unfolding_all decide)).1
    (by with_unfolding_all decide)]
  with_unfolding_all decide

/-- Claim C3: two-maxima rule.  When the thresholded search returns exactly
two maxima `[p1, p2]`, both boundary slots are replaced (`i ← rpeaks[i]+p1`,
`i+1 ← rpeaks[i]+p2`) exactly when both strict amplitude differences are
positive, and nothing changes otherwise; segments yielding zero maxima or
three or more maxima change nothing. -/
theorem C3_two_maxima (sig : List ℚ) (rp adj : List ℕ) (i : ℕ) (ht : ℚ) :
    (∀ p1 p2,
      find_peaks (slice sig (rp.getD i 0) (rp.getD (i + 1) 0)) (some ht) = [p1, p2] →
      adjustSegment sig rp adj i ht =
        if 0 < sampleAt (slice sig (rp.getD i 0) (rp.getD (i + 1) 0)) p1 -
            sampleAt sig (rp.getD i 0) ∧
           0 < sampleAt (slice sig (rp.getD i 0) (rp.getD (i + 1) 0)) p2 -
            sampleAt sig (rp.getD (i + 1) 0) then
          (adj.set i (rp.getD i 0 + p1)).set (i + 1) (rp.getD i 0 + p2)
        else adj) ∧
    (find_peaks (slice sig (rp.getD i 0) (rp.getD (i + 1) 0)) (some ht) = [] →
      adjustSegment sig rp adj i ht = adj) ∧
    (3 ≤ (find_peaks (slice sig (rp.getD i 0) (rp.getD (i + 1) 0)) (some ht)).length →
      adjustSegment sig rp adj i ht = adj) := by
  refine ⟨?_, ?_, ?_⟩
  · intro p1 p2 hfp
    simp only [adjustSegment, hfp]
  · intro hfp
    simp only [adjustSegment, hfp]
  · intro hlen
    rcases hl : find_peaks (slice sig (rp.getD i 0) (rp.getD (i + 1) 0)) (some ht)
      with _ | ⟨a, _ | ⟨b, _ | ⟨c, rest⟩⟩⟩
    · rw [hl] at hlen; simp at hlen
    · rw [hl] at hlen; simp at hlen
    · rw [hl] at hlen; simp at hlen
    · simp only [adjustSegment, hl]

/-- Witness for C3: on `sigC10` with peaks `[0, 15]`, the two maxima at
offsets 5 and 9 both dominate their neighbors, so both slots are replaced. -/
theorem C3_two_maxima_witness :
    adjustSegment sigC10 [0, 15] [0, 15] 0 (peak_height sigC10) = [5, 9] := by
  rw [(C3_two_maxima sigC10 [0, 15] [0, 15] 0 (peak_height sigC10)).1 5 9
    (by with_unfolding_all decide)]
  with_unfolding_all decide

/-- Claim C4: fallback activation threshold.  For a non-empty peak sequence
the result is the adjusted sequence paired with the filtered fallback
candidate list exactly when the number of changed slots reaches
`len(peaks) * 0.5`, and with the no-fallback sentinel (`none`) exactly
otherwise. -/
theorem C4_fallback_threshold (sig : List ℚ) (rp : List ℕ) (hne : rp ≠ []) :
    ∃ c, adjust_rpeaks sig rp = some (adjustLoop sig rp (peak_height sig), c) ∧
      ((changedCount rp (adjustLoop sig rp (peak_height sig)) : ℚ) ≥
          (rp.length : ℚ) * 0.5 ↔
        c = some ((fallbackCandidates sig (adjustLoop sig rp (peak_height sig))).filter
          (fun q => !((adjustLoop sig rp (peak_height sig)).contains q)))) ∧
      ((changedCount rp (adjustLoop sig rp (peak_height sig)) : ℚ) <
          (rp.length : ℚ) * 0.5 ↔ c = none) := by
  by_cases hc : (changedCount rp (adjustLoop sig rp (peak_height sig)) : ℚ) ≥
      (rp.length : ℚ) * 0.5
  · refine ⟨some ((fallbackCandidates sig (adjustLoop sig rp (peak_height sig))).filter
      (fun q => !((adjustLoop sig rp (peak_height sig)).contains q))), ?_, ?_, ?_⟩
    · rw [adjust_rpeaks_spec sig rp hne, if_pos hc]
    · exact iff_of_true hc rfl
    · exact iff_of_false (not_lt.mpr hc) (by simp)
  · refine ⟨none, ?_, ?_, ?_⟩
    · rw [adjust_rpeaks_spec sig rp hne, if_neg hc]
    · exact iff_of_false hc (by simp)
    · exact iff_of_true (lt_of_not_ge hc) rfl

/-- Witness for C4: on `sigW1` with peaks `[0, 4]`, one of two slots changes
(`1 ≥ 2 * 0.5`), so the fallback list (here empty) is returned. -/
theorem C4_fallback_threshold_witness :
    adjust_rpeaks sigW1 [0, 4] = some ([2, 4], some []) := by
  obtain ⟨c, hspec, hiff, _⟩ := C4_fallback_threshold sigW1 [0, 4] (by decide)
  rw [hiff.mp (by with_unfolding_all decide)] at hspec
  rw [hspec]
  with_unfolding_all decide

/-- Claim C5: empty-input failure.  An empty peak sequence yields exactly the
failure value (`none`, modelling the `False, False` return) and nothing else;
a non-empty peak sequence never yields that failure. -/
theorem C5_empty_input (sig : List ℚ) (rp : List ℕ) :
    adjust_rpeaks sig [] = none ∧ (rp ≠ [] → adjust_rpeaks sig rp ≠ none) := by
  constructor
  · simp [adjust_rpeaks]
  · intro hne
    rw [adjust_rpeaks_spec sig rp hne]
    simp

/-- Witness for C5 at a concrete non-empty input. -/
theorem C5_empty_input_witness : adjust_rpeaks ([] : List ℚ) [0] ≠ none :=
  (C5_empty_input ([] : List ℚ) [0]).2 (by decide)

/-- Claim C6: candidate disjointness.  Whenever a candidate list is emitted,
none of its entries occurs in the returned adjusted sequence, and the
surviving candidates form a sublist of the generator's output (per-segment
insertion order preserved). -/
theorem C6_candidate_disjointness (sig : List ℚ) (rp adj c : List ℕ)
    (hne : rp ≠ []) (h : adjust_rpeaks sig rp = some (adj, some c)) :
    (∀ x ∈ c, x ∉ adj) ∧ c.Sublist (fallbackCandidates sig adj) := by
  rw [adjust_rpeaks_spec sig rp hne] at h
  injection Option.some.inj h with ha hc
  subst ha
  by_cases hcond : (changedCount rp
      (adjustLoop sig rp (peak_height sig)) : ℚ) ≥ (rp.length : ℚ) * 0.5
  · rw [if_pos hcond] at hc
    injection hc with hc'
    subst hc'
    constructor
    · intro x hx
      have hpx := List.of_mem_filter hx
      simpa using hpx
    · exact List.filter_sublist _
  · rw [if_neg hcond] at hc
    cases hc

/-- Witness for C6: the concrete duplicated-candidate run on `sigC10`. -/
theorem C6_candidate_disjointness_witness :
    (∀ x ∈ [7, 7], x ∉ [5, 9, 5, 9]) ∧
      ([7, 7] : List ℕ).Sublist (fallbackCandidates sigC10 [5, 9, 5, 9]) :=
  C6_candidate_disjointness sigC10 [0, 15, 2, 17] [5, 9, 5, 9] [7, 7]
    (by decide) (by with_unfolding_all decide)

/-- Claim C7 (refuted): there is NO signal and strictly ascending peak
sequence for which the returned adjusted sequence fails to be strictly
ascending — every replacement lies strictly between the two original peaks
bounding its segment and slots are finalized left to right, so the claimed
non-monotonic input cannot exist. -/
theorem C7_nonmonotonic_counterexample :
    ¬ ∃ (sig : List ℚ) (rp adj : List ℕ) (c : Option (List ℕ)),
        List.Chain' (· < ·) rp ∧ adjust_rpeaks sig rp = some (adj, c) ∧
        ¬ List.Chain' (· < ·) adj := by
  rintro ⟨sig, rp, adj, c, hasc, h, hnot⟩
  exact hnot (adjust_rpeaks_preserves_asc sig rp adj c hasc h)

/-- Claim C7 (amended): for every signal and strictly ascending input peak
sequence, the returned adjusted sequence is strictly ascending as well. -/
theorem C7_ascending_preserved (sig : List ℚ) (rp adj : List ℕ)
    (c : Option (List ℕ)) (hasc : List.Chain' (· < ·) rp)
    (h : adjust_rpeaks sig rp = some (adj, c)) :
    List.Chain' (· < ·) adj :=
  adjust_rpeaks_preserves_asc sig rp adj c hasc h

/-- Witness for the amended C7 at a concrete input. -/
theorem C7_ascending_preserved_witness : List.Chain' (· < ·) [2, 4] :=
  C7_ascending_preserved sigW1 [0, 4] [2, 4] (some [])
    (by simp [List.chain'_cons]) (by with_unfolding_all decide)

/-- Claim C8 (refuted): the write sets of two distinct iterations are not
always disjoint — on `sigC8` iteration 0 writes slot 1 (replacing 6 by 4)
and iteration 1 then writes slot 1 again (replacing 4 by 8). -/
theorem C8_disjoint_writes_counterexample :
    adjustSegment sigC8 [0, 6, 11] [0, 6, 11] 0 (peak_height sigC8) = [0, 4, 11] ∧
    adjustSegment sigC8 [0, 6, 11] [0, 4, 11] 1 (peak_height sigC8) = [0, 8, 11] := by
  constructor <;> with_unfolding_all decide

/-- Claim C8 (amended): iteration `i` writes only slots `i` and `i+1`, so
iterations at distance at least two have disjoint write targets; consecutive
iterations, however, share slot `i+1`. -/
theorem C8_frame (sig : List ℚ) (rp adj : List ℕ) (i j : ℕ) (ht : ℚ)
    (h1 : j ≠ i) (h2 : j ≠ i + 1) :
    (adjustSegment sig rp adj i ht).getD j 0 = adj.getD j 0 :=
  adjustSegment_frame sig rp adj i j ht h1 h2

/-- Witness for the amended C8 at a concrete input. -/
theorem C8_frame_witness :
    (adjustSegment sigC8 [0, 6, 11] [0, 6, 11] 0 (peak_height sigC8)).getD 2 0 =
      [0, 6, 11].getD 2 0 :=
  C8_frame sigC8 [0, 6, 11] [0, 6, 11] 0 2 (peak_height sigC8)
    (by decide) (by decide)

/-- Claim C9: every replacement index is of the form `rpeaks[i] + p` with
`0 < p < rpeaks[i+1] - rpeaks[i]`, hence lies strictly between the two
original peaks; consequently, for valid strictly ascending input peaks every
entry of the adjusted sequence is a valid index into the signal. -/
theorem C9_replacement_bounds (sig : List ℚ) (rp : List ℕ) (ht : ℚ)
    (hasc : List.Chain' (· < ·) rp) (hvalid : ∀ x ∈ rp, x < sig.length) :
    (∀ a b p, p ∈ find_peaks (slice sig a b) (some ht) →
      a < a + p ∧ a + p < b) ∧
    (∀ x ∈ adjustLoop sig rp ht, x < sig.length) := by
  constructor
  · intro a b p hp
    have hb := write_bounds sig a b p ht hp
    omega
  · exact adjustLoop_valid sig rp ht ((chain'_lt_iff_ascTo rp).mp hasc) hvalid

/-- Witness for C9 at a concrete input. -/
theorem C9_replacement_bounds_witness :
    (∀ a b p, p ∈ find_peaks (slice sigW1 a b) (some (peak_height sigW1)) →
      a < a + p ∧ a + p < b) ∧
    (∀ x ∈ adjustLoop sigW1 [0, 4] (peak_height sigW1), x < sigW1.length) :=
  C9_replacement_bounds sigW1 [0, 4] (peak_height sigW1)
    (by simp [List.chain'_cons]) (by with_unfolding_all decide)

/-- Claim C10: the fallback's final filter removes only values occurring in
the adjusted sequence and does not deduplicate the candidate list against
itself: on `sigC10` with peak input `[0, 15, 2, 17]`, two different adjusted
segments select the maximum at absolute index 7 and both copies survive into
the returned candidate list. -/
theorem C10_duplicate_candidates :
    adjust_rpeaks sigC10 [0, 15, 2, 17] = some ([5, 9, 5, 9], some [7, 7]) ∧
    fallbackCandidates sigC10 [5, 9, 5, 9] = [7, 7] ∧
    ¬ ([7, 7] : List ℕ).Nodup := by
  refine ⟨?_, ?_, ?_⟩
  · with_unfolding_all decide
  · with_unfolding_all decide
  · decide

end ECG
